import Mathlib

/-!
# Documentation-site build configuration (`config/config.doc.js`)

A shallow embedding of the configuration record exported by `config/config.doc.js`
and of the `chainWebpack` callback it contains.

* Strings of the host language are `String`s; the character-level helpers work on
  `List Char` so that every definition is structurally recursive and evaluates.
* The chain configuration handed to `chainWebpack` is modelled by `Config`: the named
  module rules (an insertion-ordered map), and the alias map.  Named maps follow the
  host `Map` discipline (`set` on a present key keeps its position, otherwise appends),
  sets follow the host `Set` discipline: strings are members by value, objects by
  identity, so the value of a regular-expression literal is a new member each time.
* `Config.sameAs` compares two configurations with include and exclude read as sets
  and regular expressions compared by source and flags.
* `path.resolve` and `path.join` are the POSIX functions of the host runtime, modelled
  on path segments.
-/

namespace DocConfig

/-! ## Named maps and sets of the chain API -/

/-- An insertion-ordered map with string keys, as an association list. -/
abbrev ChainedMap (β : Type) := List (String × β)

namespace ChainedMap

/-- Value stored under `k`, if any. -/
def get {β : Type} : ChainedMap β → String → Option β
  | [], _ => none
  | (k', v) :: rest, k => if k' = k then some v else get rest k

/-- Store `v` under `k`: an existing key keeps its position, a new key is appended. -/
def set {β : Type} (k : String) (v : β) : ChainedMap β → ChainedMap β
  | [] => [(k, v)]
  | (k', v') :: rest => if k' = k then (k, v) :: rest else (k', v') :: set k v rest

/-- Fetch the entry `k`, creating it from `dflt` when absent, and transform it in place. -/
def update {β : Type} (k : String) (dflt : β) (f : β → β) (m : ChainedMap β) : ChainedMap β :=
  set k (f ((get m k).getD dflt)) m

end ChainedMap

/-- An insertion-ordered set, as a list. -/
abbrev ChainedSet (α : Type) := List α

/-! ## Regular expressions -/

/-- A regular expression literal: its source text and its flags. -/
structure RegExp where
  source : String
  flags : String
  deriving DecidableEq, Repr

/-- One element of a compiled pattern (the concatenation-only fragment). -/
inductive Atom where
  | lit (c : Char)
  | anyChar
  | bol
  | eol
  deriving DecidableEq, Repr

/-- Characters that start syntax outside the concatenation-only fragment. -/
def isOperator (c : Char) : Bool :=
  c = '*' || c = '+' || c = '?' || c = '(' || c = ')' || c = '[' || c = ']' ||
  c = '\x7b' || c = '\x7d' || c = '|'

/-- Characters whose escape `\c` denotes the character itself. -/
def isSyntaxChar (c : Char) : Bool :=
  isOperator c || c = '.' || c = '^' || c = '$' || c = '\\' || c = '/'

/-- Compile a pattern source into atoms; `none` when it leaves the fragment. -/
def compile : List Char → Option (List Atom)
  | [] => some []
  | '\\' :: c :: rest =>
    if isSyntaxChar c then (compile rest).map (Atom.lit c :: ·) else none
  | c :: rest =>
    if c = '\\' then none
    else if isOperator c then none
    else if c = '.' then (compile rest).map (Atom.anyChar :: ·)
    else if c = '^' then (compile rest).map (Atom.bol :: ·)
    else if c = '$' then (compile rest).map (Atom.eol :: ·)
    else (compile rest).map (Atom.lit c :: ·)

/-- Line terminators of the host language. -/
def isLineTerminator (c : Char) : Bool :=
  c = '\n' || c = '\r' || c = '\u2028' || c = '\u2029'

/-- Match the atoms at the current position: `prev` is the character before the position
(`none` at the start of input), the list is the input from the position on. -/
def matchHere (multiline : Bool) : List Atom → Option Char → List Char → Bool
  | [], _, _ => true
  | Atom.lit c :: as, _, x :: xs => x = c && matchHere multiline as (some x) xs
  | Atom.lit _ :: _, _, [] => false
  | Atom.anyChar :: as, _, x :: xs => !isLineTerminator x && matchHere multiline as (some x) xs
  | Atom.anyChar :: _, _, [] => false
  | Atom.bol :: as, prev, xs =>
    (match prev with
      | none => true
      | some p => multiline && isLineTerminator p) && matchHere multiline as prev xs
  | Atom.eol :: as, prev, xs =>
    (match xs with
      | [] => true
      | x :: _ => multiline && isLineTerminator x) && matchHere multiline as prev xs

/-- Try the pattern at every position of the input, left to right. -/
def searchFrom (multiline : Bool) (as : List Atom) : Option Char → List Char → Bool
  | prev, [] => matchHere multiline as prev []
  | prev, x :: xs => matchHere multiline as prev (x :: xs) || searchFrom multiline as (some x) xs

/-- Behaviour of the parts of the host the embedding does not interpret: regular
expressions outside the compiled fragment, and function-valued rule conditions. -/
structure Host where
  regexTest : RegExp → String → Bool
  fnTest : Nat → String → Bool

namespace RegExp

/-- The method `re.test(s)` for a freshly created literal (search from index 0).  Only
sources of the compiled fragment with no flag other than `m` are interpreted; everything
else is left to the host. -/
def test (host : Host) (re : RegExp) (s : String) : Bool :=
  if re.flags.toList.all (· = 'm') then
    match compile re.source.toList with
    | some as => searchFrom (re.flags.toList.contains 'm') as none s.toList
    | none => host.regexTest re s
  else host.regexTest re s

end RegExp

/-! ## The chain configuration -/

/-- A rule condition: a regular expression, a path-prefix string, or a function
(identified by the object it is). -/
inductive Condition where
  | regex (re : RegExp)
  | str (s : String)
  | fn (id : Nat)
  deriving DecidableEq, Repr

namespace ChainedSet

/-- The call `set.add(x)` with `x` the value of an expression evaluated at the call.  A
string is a member by value, so adding a string that is present changes nothing; a function
is a member as the object it is; the value of a regular-expression literal is a new object,
identical to no member, so it is always appended. -/
def add (s : ChainedSet Condition) (x : Condition) : ChainedSet Condition :=
  match x with
  | Condition.regex _ => s ++ [x]
  | _ => if x ∈ s then s else s ++ [x]

end ChainedSet

/-- A named use of a rule. -/
structure Use where
  loader : Option String
  options : Option String
  deriving DecidableEq, Repr

/-- A freshly created use. -/
def Use.empty : Use := ⟨none, none⟩

/-- A named module rule (`includes` and `excludes` are its `include` and `exclude` sets). -/
structure Rule where
  test : Option Condition
  includes : ChainedSet Condition
  excludes : ChainedSet Condition
  uses : ChainedMap Use
  deriving DecidableEq, Repr

/-- A freshly created rule. -/
def Rule.empty : Rule := ⟨none, [], [], []⟩

/-- The chain configuration: `config.module.rules`, and `config.resolve.alias` as `aliases`. -/
structure Config where
  rules : ChainedMap Rule
  aliases : ChainedMap String
  deriving DecidableEq, Repr

/-- The chain configuration with nothing in it. -/
def Config.empty : Config := ⟨[], []⟩

/-- The chained call `rule.test(c)`. -/
def Rule.setTest (r : Rule) (c : Condition) : Rule := { r with test := some c }

/-- The chained calls `rule.use(name).loader(l)`, seen from the rule. -/
def Rule.useLoader (r : Rule) (name l : String) : Rule :=
  { r with uses := ChainedMap.update name Use.empty (fun u => { u with loader := some l }) r.uses }

/-- The chained call `config.module.rule(name)` followed by the edits `f` of that rule. -/
def Config.rule (c : Config) (name : String) (f : Rule → Rule) : Config :=
  { c with rules := ChainedMap.update name Rule.empty f c.rules }

/-! ## Rule conditions as the bundler reads them -/

/-- Does a string start with the given prefix? -/
def startsWith : List Char → List Char → Bool
  | _, [] => true
  | [], _ :: _ => false
  | x :: xs, p :: ps => x = p && startsWith xs ps

namespace Condition

/-- A regular expression is tested against the resource path, a string matches the
paths it is a prefix of, a function is called. -/
def accepts (host : Host) : Condition → String → Bool
  | regex re, p => re.test host p
  | str s, p => startsWith p.toList s.toList
  | fn id, p => host.fnTest id p

end Condition

namespace Rule

/-- The rule's `test` accepts the path (an absent `test` accepts everything). -/
def testAccepts (host : Host) (r : Rule) (p : String) : Bool :=
  match r.test with
  | none => true
  | some c => c.accepts host p

/-- The rule's `include` set accepts the path: it is empty, or some member accepts. -/
def includeAccepts (host : Host) (r : Rule) (p : String) : Bool :=
  r.includes.isEmpty || r.includes.any (fun c => c.accepts host p)

/-- Some member of the rule's `exclude` set accepts the path. -/
def excludeHits (host : Host) (r : Rule) (p : String) : Bool :=
  r.excludes.any (fun c => c.accepts host p)

/-- The rule handles the path: `test` and `include` accept it and `exclude` does not. -/
def handles (host : Host) (r : Rule) (p : String) : Bool :=
  r.testAccepts host p && r.includeAccepts host p && !r.excludeHits host p

end Rule

/-- The literal `/\.worker\.js$/`. -/
def workerRe : RegExp := ⟨"\\.worker\\.js$", ""⟩


/-! ## POSIX paths of the host runtime -/

/-- Split a path at every `/`. -/
def splitSep : List Char → List (List Char)
  | [] => [[]]
  | c :: cs =>
    if c = '/' then [] :: splitSep cs
    else match splitSep cs with
      | [] => [[c]]
      | s :: ss => (c :: s) :: ss

/-- Concatenate segments with a `/` between neighbours. -/
def joinSep : List (List Char) → List Char
  | [] => []
  | [s] => s
  | s :: t :: rest => s ++ '/' :: joinSep (t :: rest)

/-- One segment of `normalizeString`: empty and `.` segments are dropped, `..` removes the
last kept segment (or is kept itself, above the root, when that is allowed), every other
segment is kept. -/
def normalizeStep (allowAboveRoot : Bool) (stack : List (List Char)) (seg : List Char) :
    List (List Char) :=
  if seg = [] ∨ seg = ['.'] then stack
  else if seg = ['.', '.'] then
    if stack ≠ [] ∧ stack.getLast? ≠ some ['.', '.'] then stack.dropLast
    else if allowAboveRoot then stack ++ [seg]
    else stack
  else stack ++ [seg]

/-- The kept segments of a path, in order. -/
def normalizeSegs (allowAboveRoot : Bool) (p : List Char) : List (List Char) :=
  (splitSep p).foldl (normalizeStep allowAboveRoot) []

/-- Resolve `.` and `..` segments and repeated separators. -/
def normalizeString (p : List Char) (allowAboveRoot : Bool) : List Char :=
  joinSep (normalizeSegs allowAboveRoot p)

namespace path

/-- Does the path start with `/`? -/
def isAbsolute (p : String) : Bool := p.toList.head? = some '/'

/-- The function `path.normalize`. -/
def normalize (p : String) : String :=
  if p.toList = [] then "."
  else
    let isAbs := isAbsolute p
    let trailingSeparator := p.toList.getLast? = some '/'
    let q := normalizeString p.toList (!isAbs)
    if q = [] then
      if isAbs then "/" else if trailingSeparator then "./" else "."
    else
      let q := if trailingSeparator then q ++ ['/'] else q
      String.mk (if isAbs then '/' :: q else q)

/-- The function `path.join`: the non-empty arguments, joined by `/`, normalized. -/
def join (args : List String) : String :=
  match (args.map String.toList).filter (· ≠ []) with
  | [] => "."
  | parts => normalize (String.mk (joinSep parts))

/-- The right-to-left loop of `path.resolve` over the arguments: the path built so far
and whether it is absolute.  Arguments left of an absolute one are not looked at. -/
def resolveArgs : List String → List Char × Bool
  | [] => ([], false)
  | a :: rest =>
    let r := resolveArgs rest
    if r.2 then r
    else if a.toList = [] then r
    else (a.toList ++ '/' :: r.1, isAbsolute a)

/-- The function `path.resolve`, with the working directory `cwd` of the process made
explicit: it is consulted only when no argument is absolute. -/
def resolve (cwd : String) (args : List String) : String :=
  let r := resolveArgs args
  let r := if r.2 then r else (cwd.toList ++ '/' :: r.1, isAbsolute cwd)
  let q := normalizeString r.1 (!r.2)
  if r.2 then String.mk ('/' :: q)
  else if q = [] then "." else String.mk q

end path

/-! ## The exported configuration record -/

/-- One entry of `pages`. -/
structure Page where
  entry : String
  template : String
  filename : String
  deriving DecidableEq, Repr

/-- One copy instruction: the `from` and `to` of a pattern of the copy plugin. -/
structure CopyPattern where
  fromPath : String
  toPath : String
  deriving DecidableEq, Repr

/-- A plugin instance in `configureWebpack.plugins`. -/
inductive Plugin where
  | copyWebpackPlugin (patterns : List CopyPattern)
  deriving DecidableEq, Repr

/-- The record `css.loaderOptions.sass.sassOptions`. -/
structure SassOptions where
  charset : Bool
  outputStyle : String
  deriving DecidableEq, Repr

/-- The record `css.loaderOptions.sass`. -/
structure SassLoaderOptions where
  sassOptions : SassOptions
  additionalData : String
  deriving DecidableEq, Repr

/-- The exported record; `plugins` is `configureWebpack.plugins` and `sass` is
`css.loaderOptions.sass`. -/
structure VueConfig where
  outputDir : String
  publicPath : String
  assetsDir : String
  pages : ChainedMap Page
  chainWebpack : Config → Config
  plugins : List Plugin
  sass : SassLoaderOptions

/-- The edits of the `worker` rule: `.test(/\.worker\.js$/).use('worker-loader')
.loader('worker-loader')`. -/
def setWorkerLoader (r : Rule) : Rule :=
  (r.setTest (Condition.regex workerRe)).useLoader "worker-loader" "worker-loader"

/-- The edit of the `js` rule: `.exclude.add(/\.worker\.js$/)`. -/
def excludeWorker (r : Rule) : Rule :=
  { r with excludes := ChainedSet.add r.excludes (Condition.regex workerRe) }

/-- The edits of the `js` rule: `.include.add('/packages').end().use('babel')
.loader('babel-loader')`. -/
def includePackages (r : Rule) : Rule :=
  Rule.useLoader { r with includes := ChainedSet.add r.includes (Condition.str "/packages") }
    "babel" "babel-loader"

/-- The callback `chainWebpack` of the exported record; `dirname` is `__dirname`. -/
def chainWebpack (cwd dirname : String) (config : Config) : Config :=
  let config := config.rule "worker" setWorkerLoader
  let config := config.rule "js" excludeWorker
  let config := config.rule "js" includePackages
  { config with
    aliases :=
      ChainedMap.set "@packages" (path.resolve cwd [dirname, "../packages"])
        (ChainedMap.set "@" (path.resolve cwd [dirname, "../doc"]) config.aliases) }

/-- The template literal given as `additionalData`. -/
def additionalData : String :=
  "\n          @use \"sass:color\";\n          @use \"@/style/mixins\" as mix;\n          @use \"@/style/vars\" as var;\n          @use \"@/style/md-colors\" as colors;\n        "

/-- The value of `module.exports`; `dirname` is `__dirname`. -/
def moduleExports (cwd dirname : String) : VueConfig where
  outputDir := "./docs"
  publicPath := "./"
  assetsDir := "static"
  pages := [("index", ⟨"doc/main.js", "public/index.html", "index.html"⟩)]
  chainWebpack := chainWebpack cwd dirname
  plugins :=
    [Plugin.copyWebpackPlugin
      [⟨path.join [dirname, "../node_modules/pdfjs-dist/cmaps"],
        path.join [dirname, "../docs/static/cmaps"]⟩]]
  sass := ⟨⟨false, "expanded"⟩, additionalData⟩

/-! ## Vocabulary of the properties -/

/-- The parent directory of `__dirname`, taken as the project root. -/
def projectRoot (cwd dirname : String) : String := path.resolve cwd [dirname, ".."]

/-- The kept segments after one `..`: the last kept segment is removed. -/
def parentSegs (stack : List (List Char)) : List (List Char) :=
  if stack ≠ [] ∧ stack.getLast? ≠ some ['.', '.'] then stack.dropLast else stack

/-- A proper segment: not empty, not `.`, not `..`, and free of `/`. -/
def ProperSeg (s : List Char) : Prop :=
  s ≠ [] ∧ s ≠ ['.'] ∧ s ≠ ['.', '.'] ∧ '/' ∉ s

/-- The path `p` is the directory `root` or lies below it. -/
def isInside (root p : String) : Bool :=
  p = root || startsWith p.toList (if root = "/" then ['/'] else root.toList ++ ['/'])

/-- The path `p` can be resolved against `root`: it is relative, or absolute inside `root`. -/
def resolvable (root p : String) : Bool :=
  !path.isAbsolute p || isInside root p

/-- The string members of a condition set. -/
def stringMembers : ChainedSet Condition → List String
  | [] => []
  | Condition.str s :: rest => s :: stringMembers rest
  | _ :: rest => stringMembers rest

/-- The source and destination of every copy instruction of the plugin list. -/
def copyPaths : List Plugin → List String
  | [] => []
  | Plugin.copyWebpackPlugin ps :: rest =>
    ps.map (·.fromPath) ++ ps.map (·.toPath) ++ copyPaths rest

/-- Every file-system path the exported record hands to the bundler when the chain
configuration starts empty: the output directory, the entry and template of each page,
the directories of the `js` rule's include set, the alias targets, and the paths of the
copy instructions. -/
def handedPaths (cwd dirname : String) : List String :=
  let v := moduleExports cwd dirname
  let c := v.chainWebpack Config.empty
  [v.outputDir] ++ v.pages.map (·.2.entry) ++ v.pages.map (·.2.template)
    ++ stringMembers (((c.rules.get "js").getD Rule.empty).includes)
    ++ c.aliases.map (·.2) ++ copyPaths v.plugins

/-- Two condition lists hold the same members (regular expressions compared by source and
flags). -/
def sameMembers (a b : ChainedSet Condition) : Bool :=
  a.all (fun m => decide (m ∈ b)) && b.all (fun m => decide (m ∈ a))

/-- Two rules agree when include and exclude are read as sets. -/
def Rule.sameAs (a b : Rule) : Bool :=
  decide (a.test = b.test) && sameMembers a.includes b.includes
    && sameMembers a.excludes b.excludes && decide (a.uses = b.uses)

/-- Two rule maps have the same names in the same order, with agreeing rules. -/
def sameRules : ChainedMap Rule → ChainedMap Rule → Bool
  | [], [] => true
  | (k, r) :: m, (k', r') :: m' => decide (k = k') && r.sameAs r' && sameRules m m'
  | _, _ => false

/-- Two configurations agree when named rules, named uses and aliases are read as maps and
include and exclude as sets. -/
def Config.sameAs (a b : Config) : Bool :=
  sameRules a.rules b.rules && decide (a.aliases = b.aliases)

/-- Blank characters inside a line. -/
def isBlank (c : Char) : Bool := c = ' ' || c = '\t' || c = '\r'

/-- Remove surrounding blanks. -/
def trim (l : List Char) : List Char :=
  ((l.dropWhile isBlank).reverse.dropWhile isBlank).reverse

/-- Split a text at every line feed. -/
def splitLines : List Char → List (List Char)
  | [] => [[]]
  | c :: cs =>
    if c = '\n' then [] :: splitLines cs
    else match splitLines cs with
      | [] => [[c]]
      | s :: ss => (c :: s) :: ss

/-- The non-blank lines of a text, trimmed. -/
def statements (text : String) : List (List Char) :=
  ((splitLines text.toList).map trim).filter (· ≠ [])

/-- Remove a prefix, if it is there. -/
def dropPrefix? : List Char → List Char → Option (List Char)
  | xs, [] => some xs
  | [], _ :: _ => none
  | x :: xs, p :: ps => if x = p then dropPrefix? xs ps else none

/-- A plain identifier: a letter or underscore, then letters, digits, `_` or `-`. -/
def isIdentifier : List Char → Bool
  | [] => false
  | c :: cs => (c.isAlpha || c = '_') && cs.all (fun d => d.isAlphanum || d = '_' || d = '-')

/-- A `@use` rule: the quoted URL and the name after `as`, if any. -/
structure UseRule where
  url : String
  asName : Option String
  deriving DecidableEq, Repr

/-- Read one statement of the form `@use "<url>";` or `@use "<url>" as <identifier>;`. -/
def parseUse (line : List Char) : Option UseRule :=
  match dropPrefix? line "@use \"".toList with
  | none => none
  | some rest =>
    let url := rest.takeWhile (· ≠ '"')
    match rest.dropWhile (· ≠ '"') with
    | '"' :: after =>
      if url = [] then none
      else if after = [';'] then some ⟨String.mk url, none⟩
      else match dropPrefix? after " as ".toList with
        | none => none
        | some tail =>
          if tail.getLast? = some ';' ∧ isIdentifier tail.dropLast then
            some ⟨String.mk url, some (String.mk tail.dropLast)⟩
          else none
    | _ => none

/-- The last component of a URL: what follows its last `/` or `:`. -/
def lastComponent (url : List Char) : List Char :=
  (url.reverse.takeWhile (fun c => c ≠ '/' ∧ c ≠ ':')).reverse

/-- The namespace a `@use` rule introduces: the name after `as`, else the last component
of the URL. -/
def UseRule.namespaceName (r : UseRule) : String :=
  r.asName.getD (String.mk (lastComponent r.url.toList))

/-! ## Lemmas on named maps and sets -/

namespace ChainedMap

theorem get_set_same {β : Type} (k : String) (v : β) (m : ChainedMap β) :
    get (set k v m) k = some v := by
  induction m with
  | nil => simp [set, get]
  | cons e rest ih =>
    obtain ⟨k', v'⟩ := e
    by_cases h : k' = k
    · simp [set, get, h]
    · simp [set, get, h, ih]

theorem get_set_ne {β : Type} (k k' : String) (v : β) (m : ChainedMap β) (h : k' ≠ k) :
    get (set k v m) k' = get m k' := by
  induction m with
  | nil => simp [set, get, Ne.symm h]
  | cons e rest ih =>
    obtain ⟨k₀, v₀⟩ := e
    by_cases h₀ : k₀ = k
    · subst h₀
      simp [set, get, Ne.symm h]
    · by_cases h₁ : k₀ = k'
      · subst h₁
        simp [set, get, h₀]
      · simp [set, get, h₀, h₁, ih]

theorem set_eq_self {β : Type} (k : String) (v : β) (m : ChainedMap β)
    (h : get m k = some v) : set k v m = m := by
  induction m with
  | nil => simp [get] at h
  | cons e rest ih =>
    obtain ⟨k', v'⟩ := e
    by_cases hk : k' = k
    · simp [get, hk] at h
      simp [set, hk, h]
    · simp [get, hk] at h
      simp [set, hk, ih h]

theorem get_update_same {β : Type} (k : String) (d : β) (f : β → β) (m : ChainedMap β) :
    get (update k d f m) k = some (f ((get m k).getD d)) :=
  get_set_same k _ m

theorem get_update_ne {β : Type} (k k' : String) (d : β) (f : β → β) (m : ChainedMap β)
    (h : k' ≠ k) : get (update k d f m) k' = get m k' :=
  get_set_ne k k' _ m h

theorem update_eq_self {β : Type} (k : String) (d : β) (f : β → β) (m : ChainedMap β) (v : β)
    (h : get m k = some v) (hf : f v = v) : update k d f m = m := by
  unfold update
  rw [h]
  simpa [hf] using set_eq_self k v m h

theorem set_set {β : Type} (k : String) (a b : β) (m : ChainedMap β) :
    set k a (set k b m) = set k a m := by
  induction m with
  | nil => simp [set]
  | cons e rest ih =>
    obtain ⟨k', v'⟩ := e
    by_cases h : k' = k
    · simp [set, h]
    · simp [set, h, ih]

theorem update_update {β : Type} (k : String) (d : β) (f g : β → β) (m : ChainedMap β) :
    update k d g (update k d f m) = set k (g (f ((get m k).getD d))) m := by
  unfold update
  rw [get_set_same, set_set]
  rfl

end ChainedMap

namespace ChainedSet

theorem mem_add_self (s : ChainedSet Condition) (x : Condition) : x ∈ add s x := by
  unfold add
  split
  · simp
  · split <;> simp_all

theorem mem_add_of_mem (s : ChainedSet Condition) (x y : Condition) (h : y ∈ s) :
    y ∈ add s x := by
  unfold add
  split
  · simp [h]
  · split <;> simp_all

theorem add_str_eq_self (s : ChainedSet Condition) (x : String) (h : Condition.str x ∈ s) :
    add s (Condition.str x) = s := by
  simp [add, h]

theorem add_regex (s : ChainedSet Condition) (re : RegExp) :
    add s (Condition.regex re) = s ++ [Condition.regex re] := rfl

end ChainedSet

/-! ## What `chainWebpack` leaves in the configuration -/

theorem useLoader_useLoader (r : Rule) (name l : String) :
    (r.useLoader name l).useLoader name l = r.useLoader name l := by
  unfold Rule.useLoader
  simp only
  rw [ChainedMap.update_eq_self name Use.empty _ _ _ (ChainedMap.get_update_same name _ _ _) rfl]

theorem setWorkerLoader_idem (r : Rule) : setWorkerLoader (setWorkerLoader r) = setWorkerLoader r := by
  unfold setWorkerLoader
  have h : ((r.setTest (Condition.regex workerRe)).useLoader "worker-loader" "worker-loader").setTest
      (Condition.regex workerRe)
      = (r.setTest (Condition.regex workerRe)).useLoader "worker-loader" "worker-loader" := rfl
  rw [h, useLoader_useLoader]

theorem includePackages_idem (r : Rule) : includePackages (includePackages r) = includePackages r := by
  unfold includePackages
  have h : ∀ q : Rule, ({ (q.useLoader "babel" "babel-loader") with
      includes := ChainedSet.add (q.useLoader "babel" "babel-loader").includes
        (Condition.str "/packages") } : Rule)
      = Rule.useLoader { q with includes := ChainedSet.add q.includes (Condition.str "/packages") }
          "babel" "babel-loader" := fun _ => rfl
  rw [h, useLoader_useLoader]
  congr 1
  simp only
  rw [ChainedSet.add_str_eq_self _ _ (ChainedSet.mem_add_self _ _)]

/-- The rule `worker` after `chainWebpack`. -/
theorem chainWebpack_worker (cwd dirname : String) (c : Config) :
    (chainWebpack cwd dirname c).rules.get "worker"
      = some (setWorkerLoader ((c.rules.get "worker").getD Rule.empty)) := by
  simp only [chainWebpack, Config.rule]
  rw [ChainedMap.get_update_ne _ _ _ _ _ (by decide), ChainedMap.get_update_ne _ _ _ _ _ (by decide),
    ChainedMap.get_update_same]

/-- The rule `js` after `chainWebpack`. -/
theorem chainWebpack_js (cwd dirname : String) (c : Config) :
    (chainWebpack cwd dirname c).rules.get "js"
      = some (includePackages (excludeWorker ((c.rules.get "js").getD Rule.empty))) := by
  simp only [chainWebpack, Config.rule]
  rw [ChainedMap.get_update_same, ChainedMap.get_update_same,
    ChainedMap.get_update_ne _ _ _ _ _ (by decide)]
  rfl

/-- Rules with other names after `chainWebpack`. -/
theorem chainWebpack_other_rule (cwd dirname : String) (c : Config) (name : String)
    (hw : name ≠ "worker") (hj : name ≠ "js") :
    (chainWebpack cwd dirname c).rules.get name = c.rules.get name := by
  simp only [chainWebpack, Config.rule]
  rw [ChainedMap.get_update_ne _ _ _ _ _ hj, ChainedMap.get_update_ne _ _ _ _ _ hj,
    ChainedMap.get_update_ne _ _ _ _ _ hw]

theorem chainWebpack_aliases (cwd dirname : String) (c : Config) :
    (chainWebpack cwd dirname c).aliases
      = ChainedMap.set "@packages" (path.resolve cwd [dirname, "../packages"])
          (ChainedMap.set "@" (path.resolve cwd [dirname, "../doc"]) c.aliases) := rfl

theorem rule_eq_self (c : Config) (name : String) (f : Rule → Rule) (v : Rule)
    (h : c.rules.get name = some v) (hf : f v = v) : c.rule name f = c := by
  unfold Config.rule
  rw [ChainedMap.update_eq_self name Rule.empty f c.rules v h hf]

/-! ## Configurations compared as sets -/

theorem sameMembers_refl (a : ChainedSet Condition) : sameMembers a a = true := by
  simp [sameMembers]

theorem sameMembers_append_twice (a : ChainedSet Condition) (x : Condition) :
    sameMembers ((a ++ [x]) ++ [x]) (a ++ [x]) = true := by
  simp only [sameMembers, Bool.and_eq_true, List.all_eq_true, decide_eq_true_eq]
  constructor
  · intro m hm
    simp only [List.mem_append, List.mem_singleton] at hm ⊢
    tauto
  · intro m hm
    simp only [List.mem_append, List.mem_singleton] at hm ⊢
    tauto

theorem Rule.sameAs_refl (r : Rule) : r.sameAs r = true := by
  simp [Rule.sameAs, sameMembers_refl]

theorem sameRules_refl (m : ChainedMap Rule) : sameRules m m = true := by
  induction m with
  | nil => rfl
  | cons e rest ih =>
    obtain ⟨k, r⟩ := e
    simp [sameRules, Rule.sameAs_refl, ih]

theorem sameRules_set (k : String) (v w : Rule) (m : ChainedMap Rule)
    (h : ChainedMap.get m k = some v) (hs : w.sameAs v = true) :
    sameRules (ChainedMap.set k w m) m = true := by
  induction m with
  | nil => simp [ChainedMap.get] at h
  | cons e rest ih =>
    obtain ⟨k', v'⟩ := e
    by_cases hk : k' = k
    · simp only [ChainedMap.get, hk, if_true, Option.some.injEq] at h
      subst h
      simp [ChainedMap.set, hk, sameRules, hs, sameRules_refl]
    · simp only [ChainedMap.get, hk, if_false] at h
      simp [ChainedMap.set, hk, sameRules, Rule.sameAs_refl, ih h]

/-- Running both edits of the `js` rule again changes it at most by a repeated member of
the exclude set. -/
theorem includePackages_excludeWorker_sameAs (r : Rule) :
    (includePackages (excludeWorker (includePackages (excludeWorker r)))).sameAs
      (includePackages (excludeWorker r)) = true := by
  have h : ∀ q : Rule, excludeWorker (includePackages q) = includePackages (excludeWorker q) :=
    fun _ => rfl
  rw [h, includePackages_idem]
  have he : (includePackages (excludeWorker (excludeWorker r))).excludes
      = (r.excludes ++ [Condition.regex workerRe]) ++ [Condition.regex workerRe] := rfl
  have he' : (includePackages (excludeWorker r)).excludes
      = r.excludes ++ [Condition.regex workerRe] := rfl
  have hi : (includePackages (excludeWorker (excludeWorker r))).includes
      = (includePackages (excludeWorker r)).includes := rfl
  have hu : (includePackages (excludeWorker (excludeWorker r))).uses
      = (includePackages (excludeWorker r)).uses := rfl
  have ht : (includePackages (excludeWorker (excludeWorker r))).test
      = (includePackages (excludeWorker r)).test := rfl
  unfold Rule.sameAs
  rw [he, he', hi, hu, ht, sameMembers_append_twice, sameMembers_refl]
  simp

/-! ## The worker pattern -/

theorem matchHere_lits (ls : List Char) : ∀ (prev : Option Char) (xs : List Char),
    matchHere false (ls.map Atom.lit ++ [Atom.eol]) prev xs = true ↔ xs = ls := by
  induction ls with
  | nil =>
    intro prev xs
    cases xs <;> simp [matchHere]
  | cons l ls ih =>
    intro prev xs
    cases xs with
    | nil => simp [matchHere]
    | cons x xs => simp [matchHere, ih]

theorem searchFrom_lits (ls : List Char) : ∀ (prev : Option Char) (xs : List Char),
    searchFrom false (ls.map Atom.lit ++ [Atom.eol]) prev xs = true ↔ ls <:+ xs := by
  intro prev xs
  induction xs generalizing prev with
  | nil =>
    simp only [searchFrom, matchHere_lits, List.suffix_nil]
    exact eq_comm
  | cons x xs ih =>
    simp only [searchFrom, Bool.or_eq_true, matchHere_lits, ih, List.suffix_cons_iff]
    constructor
    · rintro (h | h)
      · exact Or.inl h.symm
      · exact Or.inr h
    · rintro (h | h)
      · exact Or.inl h.symm
      · exact Or.inr h

/-- The worker pattern accepts exactly the strings that end in `.worker.js`. -/
theorem workerRe_test (host : Host) (p : String) :
    workerRe.test host p = true ↔ ".worker.js".toList <:+ p.toList := by
  have hc : compile workerRe.source.toList
      = some (".worker.js".toList.map Atom.lit ++ [Atom.eol]) := by decide
  have hf : workerRe.flags.toList.contains 'm' = false := by decide
  have ha : workerRe.flags.toList.all (· = 'm') = true := by decide
  unfold RegExp.test
  rw [if_pos ha, hc, hf]
  exact searchFrom_lits _ none p.toList

/-! ## Lemmas on paths -/

theorem splitSep_ne_nil (p : List Char) : splitSep p ≠ [] := by
  cases p with
  | nil => simp [splitSep]
  | cons c cs =>
    unfold splitSep
    split
    · simp
    · split <;> simp

theorem splitSep_append_sep (a b : List Char) :
    splitSep (a ++ '/' :: b) = splitSep a ++ splitSep b := by
  induction a with
  | nil => simp [splitSep]
  | cons c cs ih =>
    by_cases hc : c = '/'
    · simp [splitSep, hc, ih]
    · simp only [List.cons_append, splitSep, hc, if_false]
      have ih' : splitSep (cs.append ('/' :: b)) = splitSep cs ++ splitSep b := ih
      rw [ih']
      cases h : splitSep cs with
      | nil => exact absurd h (splitSep_ne_nil cs)
      | cons s ss => simp

theorem splitSep_of_not_mem (s : List Char) (h : '/' ∉ s) : splitSep s = [s] := by
  induction s with
  | nil => rfl
  | cons c cs ih =>
    have hc : c ≠ '/' := fun e => h (by simp [e])
    have hcs : '/' ∉ cs := fun e => h (List.mem_cons_of_mem _ e)
    simp [splitSep, hc, ih hcs]

theorem not_mem_of_mem_splitSep (p : List Char) : ∀ s ∈ splitSep p, '/' ∉ s := by
  induction p with
  | nil => simp [splitSep]
  | cons c cs ih =>
    by_cases hc : c = '/'
    · intro s hs
      simp only [splitSep, hc, if_true, List.mem_cons] at hs
      rcases hs with rfl | hs
      · simp
      · exact ih s hs
    · intro s hs
      simp only [splitSep, hc, if_false] at hs
      cases h : splitSep cs with
      | nil => exact absurd h (splitSep_ne_nil cs)
      | cons t ts =>
        rw [h] at hs ih
        simp only [List.mem_cons] at hs
        rcases hs with rfl | hs
        · have ht := ih t (by simp)
          intro hm
          simp only [List.mem_cons] at hm
          rcases hm with e | hm
          · exact hc e.symm
          · exact ht hm
        · exact ih s (by simp [hs])

theorem normalizeSegs_append_sep (b : Bool) (a rest : List Char) :
    normalizeSegs b (a ++ '/' :: rest)
      = (splitSep rest).foldl (normalizeStep b) (normalizeSegs b a) := by
  unfold normalizeSegs
  rw [splitSep_append_sep, List.foldl_append]

theorem normalizeStep_nil (b : Bool) (stack : List (List Char)) :
    normalizeStep b stack [] = stack := by
  simp [normalizeStep]

theorem normalizeStep_dot (b : Bool) (stack : List (List Char)) :
    normalizeStep b stack ['.'] = stack := by
  simp [normalizeStep]

theorem normalizeStep_dotdot (stack : List (List Char)) :
    normalizeStep false stack ['.', '.'] = parentSegs stack := by
  simp [normalizeStep, parentSegs]

theorem normalizeStep_proper (b : Bool) (stack : List (List Char)) (s : List Char)
    (h₁ : s ≠ []) (h₂ : s ≠ ['.']) (h₃ : s ≠ ['.', '.']) :
    normalizeStep b stack s = stack ++ [s] := by
  simp [normalizeStep, h₁, h₂, h₃]

theorem joinSep_append_singleton (xs : List (List Char)) (s : List Char) :
    joinSep (xs ++ [s]) = if xs = [] then s else joinSep xs ++ '/' :: s := by
  induction xs with
  | nil => simp [joinSep]
  | cons x rest ih =>
    cases rest with
    | nil => simp [joinSep]
    | cons y ys =>
      simp only [List.cons_append, reduceCtorEq, if_false] at ih ⊢
      show x ++ '/' :: joinSep (y :: (ys ++ [s])) = (x ++ '/' :: joinSep (y :: ys)) ++ '/' :: s
      rw [ih]
      simp

theorem joinSep_append_singleton_ne_nil (xs : List (List Char)) (s : List Char) (h : s ≠ []) :
    joinSep (xs ++ [s]) ≠ [] := by
  rw [joinSep_append_singleton]
  split <;> simp [h]

theorem getLast?_joinSep_append_singleton (xs : List (List Char)) (s : List Char) (h : s ≠ []) :
    (joinSep (xs ++ [s])).getLast? = s.getLast? := by
  rw [joinSep_append_singleton]
  split
  · rfl
  · obtain ⟨a, t, rfl⟩ := List.exists_cons_of_ne_nil h
    rw [List.getLast?_append, List.getLast?_cons_cons, List.getLast?_eq_getLast _ (by simp)]
    rfl

theorem getLast?_cons_of_ne_nil (c : Char) (l : List Char) (h : l ≠ []) :
    (c :: l).getLast? = l.getLast? := by
  obtain ⟨a, t, rfl⟩ := List.exists_cons_of_ne_nil h
  exact List.getLast?_cons_cons

theorem toList_ne_nil_of_isAbsolute (d : String) (hd : path.isAbsolute d = true) :
    d.toList ≠ [] := by
  intro h
  unfold path.isAbsolute at hd
  rw [h] at hd
  simp at hd

theorem resolve_of_absolute (cwd d rel : String) (hd : path.isAbsolute d = true)
    (hr : rel.toList ≠ []) (hra : path.isAbsolute rel = false) :
    path.resolve cwd [d, rel]
      = String.mk ('/' :: joinSep ((splitSep (rel.toList ++ ['/'])).foldl (normalizeStep false)
          (normalizeSegs false d.toList))) := by
  have hd' := toList_ne_nil_of_isAbsolute d hd
  have hdd : d.data ≠ [] := hd'
  have hr' : rel.data ≠ [] := hr
  have h₁ : path.resolveArgs [d, rel] = (d.toList ++ '/' :: (rel.toList ++ ['/']), true) := by
    simp [path.resolveArgs, hr', hra, hd, hdd]
  unfold path.resolve
  rw [h₁]
  simp [normalizeString, normalizeSegs_append_sep]

/-- The parent directory of an absolute `__dirname`. -/
theorem projectRoot_eq (cwd d : String) (hd : path.isAbsolute d = true) :
    projectRoot cwd d = String.mk ('/' :: joinSep (parentSegs (normalizeSegs false d.toList))) := by
  unfold projectRoot
  rw [resolve_of_absolute cwd d ".." hd (by decide) (by decide)]
  have h : splitSep ("..".toList ++ ['/']) = [['.', '.'], []] := by decide
  rw [h]
  simp [List.foldl, normalizeStep_dotdot, normalizeStep_nil]

/-- Resolving `../<name>` against an absolute `__dirname`, for the two names in use. -/
theorem resolve_doc (cwd d : String) (hd : path.isAbsolute d = true) :
    path.resolve cwd [d, "../doc"]
      = String.mk ('/' :: joinSep (parentSegs (normalizeSegs false d.toList) ++ ["doc".toList])) := by
  rw [resolve_of_absolute cwd d "../doc" hd (by decide) (by decide)]
  have h : splitSep ("../doc".toList ++ ['/']) = [['.', '.'], "doc".toList, []] := by decide
  rw [h]
  simp only [List.foldl, normalizeStep_dotdot, normalizeStep_nil]
  rw [normalizeStep_proper _ _ _ (by decide) (by decide) (by decide)]

theorem resolve_packages (cwd d : String) (hd : path.isAbsolute d = true) :
    path.resolve cwd [d, "../packages"]
      = String.mk
          ('/' :: joinSep (parentSegs (normalizeSegs false d.toList) ++ ["packages".toList])) := by
  rw [resolve_of_absolute cwd d "../packages" hd (by decide) (by decide)]
  have h : splitSep ("../packages".toList ++ ['/']) = [['.', '.'], "packages".toList, []] := by
    decide
  rw [h]
  simp only [List.foldl, normalizeStep_dotdot, normalizeStep_nil]
  rw [normalizeStep_proper _ _ _ (by decide) (by decide) (by decide)]

theorem resolve_doc_ne_packages (cwd d : String) (hd : path.isAbsolute d = true) :
    path.resolve cwd [d, "../doc"] ≠ path.resolve cwd [d, "../packages"] := by
  rw [resolve_doc cwd d hd, resolve_packages cwd d hd]
  intro h
  have h' := congrArg (fun t : String => t.toList.getLast?) h
  simp only [String.toList] at h'
  rw [getLast?_cons_of_ne_nil _ _ (joinSep_append_singleton_ne_nil _ _ (by decide)),
    getLast?_cons_of_ne_nil _ _ (joinSep_append_singleton_ne_nil _ _ (by decide)),
    getLast?_joinSep_append_singleton _ _ (by decide),
    getLast?_joinSep_append_singleton _ _ (by decide)] at h'
  exact absurd h' (by decide)

theorem normalizeStep_false_proper (stack : List (List Char)) (seg : List Char)
    (hs : ∀ s ∈ stack, ProperSeg s) (hseg : '/' ∉ seg) :
    ∀ s ∈ normalizeStep false stack seg, ProperSeg s := by
  unfold normalizeStep
  split
  · exact hs
  · rename_i h₁
    split
    · split
      · intro s hm
        exact hs s (List.dropLast_subset stack hm)
      · simpa using hs
    · rename_i h₂
      intro s hm
      rcases List.mem_append.mp hm with hm | hm
      · exact hs s hm
      · rw [List.mem_singleton] at hm
        subst hm
        exact ⟨fun e => h₁ (Or.inl e), fun e => h₁ (Or.inr e), h₂, hseg⟩

theorem foldl_normalizeStep_proper (segs : List (List Char)) :
    ∀ stack : List (List Char), (∀ s ∈ stack, ProperSeg s) → (∀ s ∈ segs, '/' ∉ s) →
      ∀ s ∈ segs.foldl (normalizeStep false) stack, ProperSeg s := by
  induction segs with
  | nil => intro stack hs _; simpa using hs
  | cons seg rest ih =>
    intro stack hs hsegs
    rw [List.foldl_cons]
    exact ih _ (normalizeStep_false_proper stack seg hs (hsegs seg (by simp)))
      (fun s hm => hsegs s (List.mem_cons_of_mem _ hm))

theorem normalizeSegs_proper (p : List Char) : ∀ s ∈ normalizeSegs false p, ProperSeg s :=
  foldl_normalizeStep_proper (splitSep p) [] (by simp) (not_mem_of_mem_splitSep p)

theorem parentSegs_proper (stack : List (List Char)) (hs : ∀ s ∈ stack, ProperSeg s) :
    ∀ s ∈ parentSegs stack, ProperSeg s := by
  unfold parentSegs
  split
  · intro s hm
    exact hs s (List.dropLast_subset stack hm)
  · exact hs

/-- Normalizing the rendering of proper segments gives the segments back. -/
theorem foldl_splitSep_joinSep (b : Bool) (segs : List (List Char)) :
    (∀ s ∈ segs, ProperSeg s) → ∀ stack : List (List Char),
      (splitSep (joinSep segs)).foldl (normalizeStep b) stack = stack ++ segs := by
  induction segs with
  | nil =>
    intro _ stack
    simp [joinSep, splitSep, normalizeStep_nil]
  | cons x rest ih =>
    intro h stack
    have hx : ProperSeg x := h x (by simp)
    have hrest : ∀ s ∈ rest, ProperSeg s := fun s hm => h s (List.mem_cons_of_mem _ hm)
    cases rest with
    | nil =>
      simp only [joinSep]
      rw [splitSep_of_not_mem x hx.2.2.2]
      simp [normalizeStep_proper b stack x hx.1 hx.2.1 hx.2.2.1]
    | cons y ys =>
      simp only [joinSep]
      rw [splitSep_append_sep, List.foldl_append, splitSep_of_not_mem x hx.2.2.2]
      simp only [List.foldl_cons, List.foldl_nil]
      rw [normalizeStep_proper b stack x hx.1 hx.2.1 hx.2.2.1, ih hrest]
      simp

/-- The function `path.normalize` on an absolute path with no trailing separator whose
normal form is not the root. -/
theorem normalize_of_absolute (p : List Char) (hp : p.head? = some '/')
    (hl : p.getLast? ≠ some '/') (hq : joinSep (normalizeSegs false p) ≠ []) :
    path.normalize (String.mk p) = String.mk ('/' :: joinSep (normalizeSegs false p)) := by
  have hne : p ≠ [] := by
    intro h
    rw [h] at hp
    simp at hp
  simp [path.normalize, path.isAbsolute, normalizeString, hne, hp, hl, hq]

/-- Normalizing `<root>/<tail>` where the root is the rendering of proper segments. -/
theorem normalize_root_tail (segs : List (List Char)) (hsegs : ∀ s ∈ segs, ProperSeg s)
    (tail : List Char) (hl : tail.getLast? ≠ some '/') (ht : tail ≠ [])
    (hq : joinSep ((splitSep tail).foldl (normalizeStep false) segs) ≠ []) :
    path.normalize (String.mk (('/' :: joinSep segs) ++ '/' :: tail))
      = String.mk ('/' :: joinSep ((splitSep tail).foldl (normalizeStep false) segs)) := by
  have hn : normalizeSegs false (('/' :: joinSep segs) ++ '/' :: tail)
      = (splitSep tail).foldl (normalizeStep false) segs := by
    rw [normalizeSegs_append_sep]
    congr 1
    have h := foldl_splitSep_joinSep false segs hsegs []
    simp only [List.nil_append] at h
    simp only [normalizeSegs, splitSep, if_true, List.foldl_cons, normalizeStep_nil]
    exact h
  rw [normalize_of_absolute _ (by simp) _ (by rw [hn]; exact hq), hn]
  rw [List.getLast?_append, getLast?_cons_of_ne_nil _ _ ht]
  obtain ⟨a, t, rfl⟩ := List.exists_cons_of_ne_nil ht
  rw [List.getLast?_eq_getLast _ (by simp)] at hl ⊢
  simpa using hl

/-- Joining a relative path onto an absolute `__dirname`. -/
theorem join_of_absolute (d rel : String) (hd : path.isAbsolute d = true)
    (hl : rel.toList.getLast? ≠ some '/') (hr : rel.toList ≠ [])
    (hq : joinSep ((splitSep rel.toList).foldl (normalizeStep false)
      (normalizeSegs false d.toList)) ≠ []) :
    path.join [d, rel]
      = String.mk ('/' :: joinSep ((splitSep rel.toList).foldl (normalizeStep false)
          (normalizeSegs false d.toList))) := by
  have hd' : d.data ≠ [] := toList_ne_nil_of_isAbsolute d hd
  have hr' : rel.data ≠ [] := hr
  have hj : path.join [d, rel] = path.normalize (String.mk (d.toList ++ '/' :: rel.toList)) := by
    simp [path.join, hd', hr', joinSep]
  have hn : normalizeSegs false (d.toList ++ '/' :: rel.toList)
      = (splitSep rel.toList).foldl (normalizeStep false) (normalizeSegs false d.toList) :=
    normalizeSegs_append_sep false _ _
  have hh : (d.toList ++ '/' :: rel.toList).head? = some '/' := by
    unfold path.isAbsolute at hd
    obtain ⟨a, t, ha⟩ := List.exists_cons_of_ne_nil hd'
    simp only [String.toList, ha, List.head?_cons, decide_eq_true_eq] at hd ⊢
    simpa using hd
  rw [hj, normalize_of_absolute _ hh _ (by rw [hn]; exact hq), hn]
  rw [List.getLast?_append, getLast?_cons_of_ne_nil _ _ hr]
  obtain ⟨a, t, ha⟩ := List.exists_cons_of_ne_nil hr
  rw [ha] at hl ⊢
  rw [List.getLast?_eq_getLast _ (by simp)] at hl ⊢
  simpa using hl

theorem startsWith_append (a b : List Char) : startsWith (a ++ b) a = true := by
  induction a with
  | nil => cases b <;> rfl
  | cons x xs ih => simp [startsWith, ih]

/-- A path that extends the rendering of `segs` by one more segment lies inside it. -/
theorem isInside_append_singleton (segs : List (List Char)) (s t : List Char) (ht : t ≠ []) :
    isInside (String.mk ('/' :: joinSep (segs ++ [t])))
      (String.mk ('/' :: joinSep ((segs ++ [t]) ++ [s]))) = true := by
  have hne : joinSep (segs ++ [t]) ≠ [] := joinSep_append_singleton_ne_nil segs t ht
  have hroot : String.mk ('/' :: joinSep (segs ++ [t])) ≠ "/" := by
    intro h
    have h' := congrArg String.toList h
    simp only [String.toList] at h'
    exact hne (by simpa using h')
  have hj : joinSep ((segs ++ [t]) ++ [s]) = joinSep (segs ++ [t]) ++ '/' :: s := by
    rw [joinSep_append_singleton (segs ++ [t]) s]
    simp
  unfold isInside
  rw [if_neg hroot, hj]
  have hs : startsWith (('/' :: joinSep (segs ++ [t])) ++ '/' :: s)
      (('/' :: joinSep (segs ++ [t])) ++ ['/']) = true := by
    have := startsWith_append (('/' :: joinSep (segs ++ [t])) ++ ['/']) s
    simpa using this
  simp only [String.toList, Bool.or_eq_true]
  exact Or.inr hs

/-- The destination of the copy instruction, for an absolute `__dirname`. -/
theorem join_cmaps (d : String) (hd : path.isAbsolute d = true) :
    path.join [d, "../docs/static/cmaps"]
      = String.mk ('/' :: joinSep (parentSegs (normalizeSegs false d.toList)
          ++ ["docs".toList, "static".toList, "cmaps".toList])) := by
  have hs : splitSep "../docs/static/cmaps".toList
      = [['.', '.'], "docs".toList, "static".toList, "cmaps".toList] := by decide
  have hf : (splitSep "../docs/static/cmaps".toList).foldl (normalizeStep false)
      (normalizeSegs false d.toList)
      = (parentSegs (normalizeSegs false d.toList) ++ ["docs".toList, "static".toList])
          ++ ["cmaps".toList] := by
    rw [hs]
    simp only [List.foldl, normalizeStep_dotdot]
    rw [normalizeStep_proper _ _ _ (by decide) (by decide) (by decide),
      normalizeStep_proper _ _ _ (by decide) (by decide) (by decide),
      normalizeStep_proper _ _ _ (by decide) (by decide) (by decide)]
    simp
  rw [join_of_absolute d "../docs/static/cmaps" hd (by decide) (by decide)
    (by rw [hf]; exact joinSep_append_singleton_ne_nil _ _ (by decide)), hf]
  simp

/-- The source of the copy instruction, for an absolute `__dirname`. -/
theorem join_node_modules (d : String) (hd : path.isAbsolute d = true) :
    path.join [d, "../node_modules/pdfjs-dist/cmaps"]
      = String.mk ('/' :: joinSep (parentSegs (normalizeSegs false d.toList)
          ++ ["node_modules".toList, "pdfjs-dist".toList, "cmaps".toList])) := by
  have hs : splitSep "../node_modules/pdfjs-dist/cmaps".toList
      = [['.', '.'], "node_modules".toList, "pdfjs-dist".toList, "cmaps".toList] := by decide
  have hf : (splitSep "../node_modules/pdfjs-dist/cmaps".toList).foldl (normalizeStep false)
      (normalizeSegs false d.toList)
      = (parentSegs (normalizeSegs false d.toList) ++ ["node_modules".toList, "pdfjs-dist".toList])
          ++ ["cmaps".toList] := by
    rw [hs]
    simp only [List.foldl, normalizeStep_dotdot]
    rw [normalizeStep_proper _ _ _ (by decide) (by decide) (by decide),
      normalizeStep_proper _ _ _ (by decide) (by decide) (by decide),
      normalizeStep_proper _ _ _ (by decide) (by decide) (by decide)]
    simp
  rw [join_of_absolute d "../node_modules/pdfjs-dist/cmaps" hd (by decide) (by decide)
    (by rw [hf]; exact joinSep_append_singleton_ne_nil _ _ (by decide)), hf]
  simp

/-- Joining the output directory, the assets directory and `cmaps` onto a root that is the
rendering of proper segments. -/
theorem join_root_static_cmaps (segs : List (List Char)) (hsegs : ∀ s ∈ segs, ProperSeg s) :
    path.join [String.mk ('/' :: joinSep segs), "./docs", "static", "cmaps"]
      = String.mk ('/' :: joinSep (segs ++ ["docs".toList, "static".toList, "cmaps".toList])) := by
  have hj : path.join [String.mk ('/' :: joinSep segs), "./docs", "static", "cmaps"]
      = path.normalize (String.mk (('/' :: joinSep segs) ++ '/' :: "./docs/static/cmaps".toList)) := by
    simp [path.join, joinSep]
  have hs : splitSep "./docs/static/cmaps".toList
      = [['.'], "docs".toList, "static".toList, "cmaps".toList] := by decide
  have hf : (splitSep "./docs/static/cmaps".toList).foldl (normalizeStep false) segs
      = (segs ++ ["docs".toList, "static".toList]) ++ ["cmaps".toList] := by
    rw [hs]
    simp only [List.foldl, normalizeStep_dot]
    rw [normalizeStep_proper _ _ _ (by decide) (by decide) (by decide),
      normalizeStep_proper _ _ _ (by decide) (by decide) (by decide),
      normalizeStep_proper _ _ _ (by decide) (by decide) (by decide)]
    simp
  rw [hj, normalize_root_tail segs hsegs _ (by decide) (by decide)
    (by rw [hf]; exact joinSep_append_singleton_ne_nil _ _ (by decide)), hf]
  simp

theorem join_root_static (segs : List (List Char)) (hsegs : ∀ s ∈ segs, ProperSeg s) :
    path.join [String.mk ('/' :: joinSep segs), "./docs", "static"]
      = String.mk ('/' :: joinSep (segs ++ ["docs".toList, "static".toList])) := by
  have hj : path.join [String.mk ('/' :: joinSep segs), "./docs", "static"]
      = path.normalize (String.mk (('/' :: joinSep segs) ++ '/' :: "./docs/static".toList)) := by
    simp [path.join, joinSep]
  have hs : splitSep "./docs/static".toList = [['.'], "docs".toList, "static".toList] := by decide
  have hf : (splitSep "./docs/static".toList).foldl (normalizeStep false) segs
      = (segs ++ ["docs".toList]) ++ ["static".toList] := by
    rw [hs]
    simp only [List.foldl, normalizeStep_dot]
    rw [normalizeStep_proper _ _ _ (by decide) (by decide) (by decide),
      normalizeStep_proper _ _ _ (by decide) (by decide) (by decide)]
  rw [hj, normalize_root_tail segs hsegs _ (by decide) (by decide)
    (by rw [hf]; exact joinSep_append_singleton_ne_nil _ _ (by decide)), hf]
  simp

theorem join_root_node_modules (segs : List (List Char)) (hsegs : ∀ s ∈ segs, ProperSeg s) :
    path.join [String.mk ('/' :: joinSep segs), "node_modules/pdfjs-dist/cmaps"]
      = String.mk ('/' :: joinSep (segs
          ++ ["node_modules".toList, "pdfjs-dist".toList, "cmaps".toList])) := by
  have hj : path.join [String.mk ('/' :: joinSep segs), "node_modules/pdfjs-dist/cmaps"]
      = path.normalize
          (String.mk (('/' :: joinSep segs) ++ '/' :: "node_modules/pdfjs-dist/cmaps".toList)) := by
    simp [path.join, joinSep]
  have hs : splitSep "node_modules/pdfjs-dist/cmaps".toList
      = ["node_modules".toList, "pdfjs-dist".toList, "cmaps".toList] := by decide
  have hf : (splitSep "node_modules/pdfjs-dist/cmaps".toList).foldl (normalizeStep false) segs
      = (segs ++ ["node_modules".toList, "pdfjs-dist".toList]) ++ ["cmaps".toList] := by
    rw [hs]
    simp only [List.foldl]
    rw [normalizeStep_proper _ _ _ (by decide) (by decide) (by decide),
      normalizeStep_proper _ _ _ (by decide) (by decide) (by decide),
      normalizeStep_proper _ _ _ (by decide) (by decide) (by decide)]
    simp
  rw [hj, normalize_root_tail segs hsegs _ (by decide) (by decide)
    (by rw [hf]; exact joinSep_append_singleton_ne_nil _ _ (by decide)), hf]
  simp

/-! ## Claims about the chain configuration -/

/-- C1: after `chainWebpack`, whatever the initial chain configuration, no resource path
is handled by both the `worker` rule and the `js` rule: a path accepted by the worker
rule's test is accepted by a member of the `js` rule's exclude set and so is not handled by
the `js` rule, and a path the `js` rule handles is not accepted by the worker rule's test. -/
theorem worker_js_exclusive (host : Host) (cwd dirname : String) (c : Config) (p : String) :
    ∃ w j, (chainWebpack cwd dirname c).rules.get "worker" = some w ∧
      (chainWebpack cwd dirname c).rules.get "js" = some j ∧
      (w.testAccepts host p = true →
        (∃ m ∈ j.excludes, m.accepts host p = true) ∧ j.handles host p = false) ∧
      (j.handles host p = true → w.testAccepts host p = false) ∧
      ¬ (w.handles host p = true ∧ j.handles host p = true) := by
  refine ⟨_, _, chainWebpack_worker cwd dirname c, chainWebpack_js cwd dirname c, ?_⟩
  generalize (c.rules.get "worker").getD Rule.empty = r₀
  generalize (c.rules.get "js").getD Rule.empty = r₁
  have hw : (setWorkerLoader r₀).testAccepts host p = workerRe.test host p := rfl
  have hmem : Condition.regex workerRe ∈ (includePackages (excludeWorker r₁)).excludes :=
    ChainedSet.mem_add_self r₁.excludes (Condition.regex workerRe)
  have key : workerRe.test host p = true →
      (∃ m ∈ (includePackages (excludeWorker r₁)).excludes, m.accepts host p = true) ∧
        (includePackages (excludeWorker r₁)).handles host p = false := by
    intro h
    have hex : ∃ m ∈ (includePackages (excludeWorker r₁)).excludes, m.accepts host p = true :=
      ⟨_, hmem, h⟩
    refine ⟨hex, ?_⟩
    have hhit : (includePackages (excludeWorker r₁)).excludeHits host p = true := by
      unfold Rule.excludeHits
      exact List.any_eq_true.mpr hex
    simp [Rule.handles, hhit]
  rw [hw]
  refine ⟨key, ?_, ?_⟩
  · intro hj
    cases hre : workerRe.test host p with
    | false => rfl
    | true => rw [(key hre).2] at hj; exact absurd hj (by decide)
  · rintro ⟨hwh, hjh⟩
    have hre : workerRe.test host p = true := by
      have : (setWorkerLoader r₀).testAccepts host p = true := by
        simp only [Rule.handles, Bool.and_eq_true] at hwh
        exact hwh.1.1
      rwa [hw] at this
    rw [(key hre).2] at hjh
    exact absurd hjh (by decide)

/-- C2: after `chainWebpack`, whatever the initial chain configuration, the test of the
rule `worker` accepts a resource path exactly when the path ends in `.worker.js`
(`a.worker.js` is accepted; `a.worker.jsx`, `aXworkerXjs` and `a.worker.js` followed by a
line feed and `b` are not), and its use `worker-loader` has the loader `worker-loader`. -/
theorem worker_rule_test_and_loader (host : Host) (cwd dirname : String) (c : Config) :
    ∃ w, (chainWebpack cwd dirname c).rules.get "worker" = some w ∧
      w.test = some (Condition.regex workerRe) ∧
      (∀ p : String, w.testAccepts host p = true ↔ ".worker.js".toList <:+ p.toList) ∧
      w.testAccepts host "a.worker.js" = true ∧
      w.testAccepts host "a.worker.jsx" = false ∧
      w.testAccepts host "aXworkerXjs" = false ∧
      w.testAccepts host "a.worker.js\nb" = false ∧
      (w.uses.get "worker-loader").map Use.loader = some (some "worker-loader") := by
  refine ⟨_, chainWebpack_worker cwd dirname c, rfl, ?_, rfl, rfl, rfl, rfl, ?_⟩
  · intro p
    exact workerRe_test host p
  · generalize (c.rules.get "worker").getD Rule.empty = r₀
    simp only [setWorkerLoader, Rule.useLoader, Rule.setTest, ChainedMap.get_update_same]
    rfl

/-- Read as lists, two applications differ from one: on the empty configuration the
second application appends a second worker pattern to the exclude set of the `js` rule. -/
theorem chainWebpack_twice_appends :
    (((chainWebpack "/tmp" "/home/user/vue-file-viewer/config"
        (chainWebpack "/tmp" "/home/user/vue-file-viewer/config" Config.empty)).rules.get
          "js").getD Rule.empty).excludes
      = [Condition.regex workerRe, Condition.regex workerRe] ∧
    (((chainWebpack "/tmp" "/home/user/vue-file-viewer/config" Config.empty).rules.get
        "js").getD Rule.empty).excludes = [Condition.regex workerRe] ∧
    chainWebpack "/tmp" "/home/user/vue-file-viewer/config"
        (chainWebpack "/tmp" "/home/user/vue-file-viewer/config" Config.empty)
      ≠ chainWebpack "/tmp" "/home/user/vue-file-viewer/config" Config.empty ∧
    (chainWebpack "/tmp" "/home/user/vue-file-viewer/config" Config.empty).sameAs Config.empty
      = false := by
  decide

/-- C9: `chainWebpack` is idempotent: with named rules, named uses and aliases read as
maps, include and exclude read as sets, and regular expressions compared by source and
flags, applying it twice gives the configuration that applying it once gives. -/
theorem chainWebpack_idempotent (cwd dirname : String) (c : Config) :
    (chainWebpack cwd dirname (chainWebpack cwd dirname c)).sameAs
      (chainWebpack cwd dirname c) = true := by
  have hw := chainWebpack_worker cwd dirname c
  have hj := chainWebpack_js cwd dirname c
  have ha := chainWebpack_aliases cwd dirname c
  generalize (c.rules.get "js").getD Rule.empty = r at hj
  generalize chainWebpack cwd dirname c = c₁ at hw hj ha
  have e₁ : ChainedMap.update "worker" Rule.empty setWorkerLoader c₁.rules = c₁.rules :=
    ChainedMap.update_eq_self _ _ _ _ _ hw (setWorkerLoader_idem _)
  have g₁ : c₁.aliases.get "@" = some (path.resolve cwd [dirname, "../doc"]) := by
    rw [ha, ChainedMap.get_set_ne _ _ _ _ (by decide), ChainedMap.get_set_same]
  have g₂ : c₁.aliases.get "@packages" = some (path.resolve cwd [dirname, "../packages"]) := by
    rw [ha, ChainedMap.get_set_same]
  have hr : (chainWebpack cwd dirname c₁).rules
      = ChainedMap.set "js" (includePackages (excludeWorker (includePackages (excludeWorker r))))
          c₁.rules := by
    simp only [chainWebpack, Config.rule]
    rw [e₁, ChainedMap.update_update, hj]
    rfl
  have hal : (chainWebpack cwd dirname c₁).aliases = c₁.aliases := by
    rw [chainWebpack_aliases, ChainedMap.set_eq_self _ _ _ g₁, ChainedMap.set_eq_self _ _ _ g₂]
  unfold Config.sameAs
  rw [hr, hal, sameRules_set "js" _ _ c₁.rules hj (includePackages_excludeWorker_sameAs r)]
  simp

/-- C10: `chainWebpack` only adds to the configuration it is given: every module rule
other than `worker` and `js` is unchanged, every alias other than `@` and `@packages` is
unchanged, and in a `js` rule that was already there the test, every member of the include
and exclude sets, and every use other than `babel` are kept. -/
theorem chainWebpack_frame (cwd dirname : String) (c : Config) :
    (∀ name : String, name ≠ "worker" → name ≠ "js" →
      (chainWebpack cwd dirname c).rules.get name = c.rules.get name) ∧
    (∀ k : String, k ≠ "@" → k ≠ "@packages" →
      (chainWebpack cwd dirname c).aliases.get k = c.aliases.get k) ∧
    (∀ j₀ : Rule, c.rules.get "js" = some j₀ →
      ∃ j, (chainWebpack cwd dirname c).rules.get "js" = some j ∧
        j.test = j₀.test ∧
        (∀ m ∈ j₀.includes, m ∈ j.includes) ∧
        (∀ m ∈ j₀.excludes, m ∈ j.excludes) ∧
        (∀ u : String, u ≠ "babel" → j.uses.get u = j₀.uses.get u)) := by
  refine ⟨fun name hw hj => chainWebpack_other_rule cwd dirname c name hw hj, ?_, ?_⟩
  · intro k h₁ h₂
    rw [chainWebpack_aliases, ChainedMap.get_set_ne _ _ _ _ h₂, ChainedMap.get_set_ne _ _ _ _ h₁]
  · intro j₀ h₀
    refine ⟨_, chainWebpack_js cwd dirname c, ?_⟩
    rw [h₀]
    refine ⟨rfl, ?_, ?_, ?_⟩
    · intro m hm
      exact ChainedSet.mem_add_of_mem j₀.includes (Condition.str "/packages") m hm
    · intro m hm
      exact ChainedSet.mem_add_of_mem j₀.excludes (Condition.regex workerRe) m hm
    · intro u hu
      simp only [includePackages, excludeWorker, Rule.useLoader, Option.getD_some]
      exact ChainedMap.get_update_ne "babel" u Use.empty _ j₀.uses hu

theorem joinSep_append (xs ys : List (List Char)) (hx : xs ≠ []) (hy : ys ≠ []) :
    joinSep (xs ++ ys) = joinSep xs ++ '/' :: joinSep ys := by
  induction xs with
  | nil => exact absurd rfl hx
  | cons x rest ih =>
    cases rest with
    | nil =>
      obtain ⟨y, ys', rfl⟩ := List.exists_cons_of_ne_nil hy
      simp [joinSep]
    | cons x' rest' =>
      have ih' := ih (by simp)
      show x ++ '/' :: joinSep (x' :: rest' ++ ys) = (x ++ '/' :: joinSep (x' :: rest')) ++ _
      rw [ih']
      simp

/-- A path that extends the rendering of proper segments by further segments lies inside it. -/
theorem isInside_extends (segs ts : List (List Char)) (hsegs : ∀ s ∈ segs, ProperSeg s)
    (hts : ts ≠ []) :
    isInside (String.mk ('/' :: joinSep segs)) (String.mk ('/' :: joinSep (segs ++ ts))) = true := by
  cases segs with
  | nil =>
    have hr : (String.mk ('/' :: joinSep []) : String) = "/" := rfl
    unfold isInside
    rw [hr, if_pos rfl]
    simp [startsWith]
  | cons x rest =>
    have hx : x ≠ [] := (hsegs x (by simp)).1
    have hne : joinSep (x :: rest) ≠ [] := by
      cases rest with
      | nil => simpa [joinSep] using hx
      | cons y ys => simp [joinSep]
    have hroot : String.mk ('/' :: joinSep (x :: rest)) ≠ "/" := by
      intro h
      have h' := congrArg String.toList h
      simp only [String.toList] at h'
      exact hne (by simpa using h')
    unfold isInside
    rw [if_neg hroot, joinSep_append (x :: rest) ts (by simp) hts]
    have hs : startsWith (('/' :: joinSep (x :: rest)) ++ '/' :: joinSep ts)
        (('/' :: joinSep (x :: rest)) ++ ['/']) = true := by
      have := startsWith_append (('/' :: joinSep (x :: rest)) ++ ['/']) (joinSep ts)
      simpa using this
    simp only [String.toList, Bool.or_eq_true]
    exact Or.inr hs

/-- For every absolute `__dirname`, every path handed to the bundler other than the member
`/packages` of the include set can be resolved against the project root. -/
theorem handedPaths_resolvable_of_ne (cwd dirname : String)
    (h : path.isAbsolute dirname = true) :
    ∀ p ∈ handedPaths cwd dirname, p ≠ "/packages" →
      resolvable (projectRoot cwd dirname) p = true := by
  have hP := parentSegs_proper _ (normalizeSegs_proper dirname.toList)
  have hl : handedPaths cwd dirname
      = ["./docs", "doc/main.js", "public/index.html", "/packages",
         path.resolve cwd [dirname, "../doc"], path.resolve cwd [dirname, "../packages"],
         path.join [dirname, "../node_modules/pdfjs-dist/cmaps"],
         path.join [dirname, "../docs/static/cmaps"]] := rfl
  have hin : ∀ ts : List (List Char), ts ≠ [] →
      resolvable (projectRoot cwd dirname)
        (String.mk ('/' :: joinSep (parentSegs (normalizeSegs false dirname.toList) ++ ts)))
        = true := by
    intro ts hts
    unfold resolvable
    rw [projectRoot_eq cwd dirname h, isInside_extends _ ts hP hts]
    simp
  intro p hp hne
  rw [hl] at hp
  simp only [List.mem_cons, List.mem_singleton, List.not_mem_nil, or_false] at hp
  rcases hp with rfl | rfl | rfl | rfl | rfl | rfl | rfl | rfl
  · rfl
  · rfl
  · rfl
  · exact absurd rfl hne
  · rw [resolve_doc cwd dirname h]
    exact hin _ (by simp)
  · rw [resolve_packages cwd dirname h]
    exact hin _ (by simp)
  · rw [join_node_modules dirname h]
    exact hin _ (by simp)
  · rw [join_cmaps dirname h]
    exact hin _ (by simp)

/-! ## Claims about paths -/

/-- C4: `chainWebpack` sets exactly two alias entries with distinct names: for every
initial chain configuration and every absolute `__dirname`, afterwards the alias map sends
`@` to `path.resolve(__dirname, '../doc')` and `@packages` to
`path.resolve(__dirname, '../packages')`, whatever was stored under these names before; the
two names are different keys, the two targets are different paths, and no other alias is
touched. -/
theorem alias_entries (cwd dirname : String) (c : Config)
    (h : path.isAbsolute dirname = true) :
    (chainWebpack cwd dirname c).aliases.get "@"
        = some (path.resolve cwd [dirname, "../doc"]) ∧
      (chainWebpack cwd dirname c).aliases.get "@packages"
        = some (path.resolve cwd [dirname, "../packages"]) ∧
      ("@" : String) ≠ "@packages" ∧
      path.resolve cwd [dirname, "../doc"] ≠ path.resolve cwd [dirname, "../packages"] ∧
      (∀ k : String, k ≠ "@" → k ≠ "@packages" →
        (chainWebpack cwd dirname c).aliases.get k = c.aliases.get k) ∧
      (chainWebpack cwd dirname Config.empty).aliases
        = [("@", path.resolve cwd [dirname, "../doc"]),
           ("@packages", path.resolve cwd [dirname, "../packages"])] := by
  refine ⟨?_, ?_, by decide, resolve_doc_ne_packages cwd dirname h, ?_, rfl⟩
  · rw [chainWebpack_aliases, ChainedMap.get_set_ne _ _ _ _ (by decide), ChainedMap.get_set_same]
  · rw [chainWebpack_aliases, ChainedMap.get_set_same]
  · intro k h₁ h₂
    rw [chainWebpack_aliases, ChainedMap.get_set_ne _ _ _ _ h₂, ChainedMap.get_set_ne _ _ _ _ h₁]

/-- Witness for C4: the alias targets for `__dirname = /home/user/vue-file-viewer/config`,
starting from a configuration that already has an `@` alias. -/
theorem alias_entries_witness :
    path.isAbsolute "/home/user/vue-file-viewer/config" = true ∧
      (chainWebpack "/tmp" "/home/user/vue-file-viewer/config" ⟨[], [("@", "/old")]⟩).aliases.get "@"
        = some "/home/user/vue-file-viewer/doc" ∧
      (chainWebpack "/tmp" "/home/user/vue-file-viewer/config"
          ⟨[], [("@", "/old")]⟩).aliases.get "@packages"
        = some "/home/user/vue-file-viewer/packages" :=
  ⟨by decide,
    (alias_entries "/tmp" "/home/user/vue-file-viewer/config" ⟨[], [("@", "/old")]⟩ (by decide)).1,
    (alias_entries "/tmp" "/home/user/vue-file-viewer/config" ⟨[], [("@", "/old")]⟩
      (by decide)).2.1⟩

/-- C5: the plugin list holds exactly one copy instruction; for every absolute
`__dirname`, with the project root its parent directory, the destination
`path.join(__dirname, '../docs/static/cmaps')` is the project root joined with the output
directory, then the assets directory, then `cmaps`, so it lies inside the static output
directory, and the source is the project root joined with
`node_modules/pdfjs-dist/cmaps`. -/
theorem copy_instruction (cwd dirname : String) (h : path.isAbsolute dirname = true) :
    ∃ pat : CopyPattern,
      (moduleExports cwd dirname).plugins = [Plugin.copyWebpackPlugin [pat]] ∧
      pat.toPath = path.join [dirname, "../docs/static/cmaps"] ∧
      pat.toPath = path.join [projectRoot cwd dirname, (moduleExports cwd dirname).outputDir,
        (moduleExports cwd dirname).assetsDir, "cmaps"] ∧
      isInside (path.join [projectRoot cwd dirname, (moduleExports cwd dirname).outputDir,
        (moduleExports cwd dirname).assetsDir]) pat.toPath = true ∧
      pat.fromPath = path.join [projectRoot cwd dirname, "node_modules/pdfjs-dist/cmaps"] := by
  have hP := parentSegs_proper _ (normalizeSegs_proper dirname.toList)
  refine ⟨_, rfl, rfl, ?_, ?_, ?_⟩
  · show path.join [dirname, "../docs/static/cmaps"]
      = path.join [projectRoot cwd dirname, "./docs", "static", "cmaps"]
    rw [join_cmaps dirname h, projectRoot_eq cwd dirname h, join_root_static_cmaps _ hP]
  · show isInside (path.join [projectRoot cwd dirname, "./docs", "static"])
      (path.join [dirname, "../docs/static/cmaps"]) = true
    rw [join_cmaps dirname h, projectRoot_eq cwd dirname h, join_root_static _ hP]
    have := isInside_append_singleton
      (parentSegs (normalizeSegs false dirname.toList) ++ ["docs".toList]) "cmaps".toList
      "static".toList (by decide)
    simpa using this
  · show path.join [dirname, "../node_modules/pdfjs-dist/cmaps"]
      = path.join [projectRoot cwd dirname, "node_modules/pdfjs-dist/cmaps"]
    rw [join_node_modules dirname h, projectRoot_eq cwd dirname h, join_root_node_modules _ hP]

/-- Witness for C5: the copy instruction for `__dirname = /home/user/vue-file-viewer/config`. -/
theorem copy_instruction_witness :
    path.isAbsolute "/home/user/vue-file-viewer/config" = true ∧
      projectRoot "/tmp" "/home/user/vue-file-viewer/config" = "/home/user/vue-file-viewer" ∧
      ∃ pat : CopyPattern,
        (moduleExports "/tmp" "/home/user/vue-file-viewer/config").plugins
          = [Plugin.copyWebpackPlugin [pat]] ∧
        pat.toPath = "/home/user/vue-file-viewer/docs/static/cmaps" ∧
        pat.toPath = path.join ["/home/user/vue-file-viewer", "./docs", "static", "cmaps"] ∧
        isInside (path.join ["/home/user/vue-file-viewer", "./docs", "static"]) pat.toPath = true ∧
        pat.fromPath = path.join ["/home/user/vue-file-viewer", "node_modules/pdfjs-dist/cmaps"] :=
  ⟨by decide, by decide, copy_instruction "/tmp" "/home/user/vue-file-viewer/config" (by decide)⟩

/-- C3, at `__dirname = /home/user/vue-file-viewer/config`: the project root is
`/home/user/vue-file-viewer`, and of the paths handed to the bundler exactly one cannot be
resolved against it, the member `/packages` of the `js` rule's include set, which is
absolute and outside the project root. -/
theorem handedPaths_unresolvable :
    projectRoot "/tmp" "/home/user/vue-file-viewer/config" = "/home/user/vue-file-viewer" ∧
      handedPaths "/tmp" "/home/user/vue-file-viewer/config"
        = ["./docs", "doc/main.js", "public/index.html", "/packages",
           "/home/user/vue-file-viewer/doc", "/home/user/vue-file-viewer/packages",
           "/home/user/vue-file-viewer/node_modules/pdfjs-dist/cmaps",
           "/home/user/vue-file-viewer/docs/static/cmaps"] ∧
      (handedPaths "/tmp" "/home/user/vue-file-viewer/config").filter
          (fun p => !resolvable (projectRoot "/tmp" "/home/user/vue-file-viewer/config") p)
        = ["/packages"] ∧
      path.isAbsolute "/packages" = true ∧
      isInside "/home/user/vue-file-viewer" "/packages" = false := by
  decide

/-- C8, at `__dirname = /home/user/vue-file-viewer/config` and an empty chain
configuration: the include set of the `js` rule holds the string `/packages` and nothing
else, not the directory `/home/user/vue-file-viewer/packages` that the alias `@packages`
resolves to, and a file under that directory does not satisfy the include condition; the
use `babel` has the loader `babel-loader`. -/
theorem include_misses_packages (host : Host) :
    ∃ j, (chainWebpack "/tmp" "/home/user/vue-file-viewer/config" Config.empty).rules.get "js"
        = some j ∧
      j.includes = [Condition.str "/packages"] ∧
      (chainWebpack "/tmp" "/home/user/vue-file-viewer/config" Config.empty).aliases.get
          "@packages" = some "/home/user/vue-file-viewer/packages" ∧
      Condition.str "/home/user/vue-file-viewer/packages" ∉ j.includes ∧
      j.includeAccepts host "/home/user/vue-file-viewer/packages/index.js" = false ∧
      (j.uses.get "babel").map Use.loader = some (some "babel-loader") := by
  refine ⟨_, rfl, rfl, by decide, by decide, rfl, rfl⟩

/-- C6: the style preprocessor options are `charset = false` and
`outputStyle = 'expanded'`; the prepended source, without its blank lines and surrounding
blanks, consists of four `@use` rules, each closed by a semicolon, and the namespaces they
introduce, `color`, `mix`, `var` and `colors`, are pairwise distinct. -/
theorem sass_loader_options (cwd dirname : String) :
    (moduleExports cwd dirname).sass.sassOptions.charset = false ∧
      (moduleExports cwd dirname).sass.sassOptions.outputStyle = "expanded" ∧
      (statements (moduleExports cwd dirname).sass.additionalData).map parseUse
        = [some ⟨"sass:color", none⟩, some ⟨"@/style/mixins", some "mix"⟩,
           some ⟨"@/style/vars", some "var"⟩, some ⟨"@/style/md-colors", some "colors"⟩] ∧
      (∀ line ∈ statements (moduleExports cwd dirname).sass.additionalData,
        line.getLast? = some ';') ∧
      ((statements (moduleExports cwd dirname).sass.additionalData).filterMap parseUse).map
          UseRule.namespaceName = ["color", "mix", "var", "colors"] ∧
      (((statements (moduleExports cwd dirname).sass.additionalData).filterMap parseUse).map
          UseRule.namespaceName).Nodup := by
  refine ⟨rfl, rfl, ?_, ?_, ?_, ?_⟩
  · show (statements additionalData).map parseUse = _
    decide
  · show ∀ line ∈ statements additionalData, line.getLast? = some ';'
    decide
  · show ((statements additionalData).filterMap parseUse).map UseRule.namespaceName = _
    decide
  · show (((statements additionalData).filterMap parseUse).map UseRule.namespaceName).Nodup
    decide

end DocConfig
